import Mathlib

/-!
Shallow embedding of `src/file_encrypt.c` (FileEncryptionSystem): the
key-repeating XOR cipher `xorCipher`, the chunked `encryptFile` /
`decryptFile` stream loop, and `validateKey`, together with theorems
checking the specification's claims about them.

Bytes are modelled as `Nat` (the C program only ever holds values below
256 in its `unsigned char` buffers, and bitwise XOR introduces no
overflow, so no reduction modulo 256 is needed anywhere).
-/

/-- `BUFFER_SIZE` from the C source (the chunk capacity of the loop). -/
def BUFFER_SIZE : Nat := 4096

/-- `MIN_KEY_LENGTH` from the C source. -/
def MIN_KEY_LENGTH : Nat := 4

/-- `MAX_KEY_LENGTH` from the C source. -/
def MAX_KEY_LENGTH : Nat := 128

/-- The loop of the C function `xorCipher`, generalized to start its byte
index at `i` (the C function itself always starts at 0; the generalization
is the recursion measure and also lets offset-continued calls be stated):
byte `b` at index `j` becomes `b ^^^ key[j % keyLen]`. -/
def xorCipherFrom (data key : List Nat) (i : Nat) : List Nat :=
  match data with
  | [] => []
  | b :: rest => (b ^^^ key.getD (i % key.length) 0) :: xorCipherFrom rest key (i + 1)

/-- `xorCipher(data, dataLen, key, keyLen)` from the C source:
`data[i] ^= (unsigned char)key[i % keyLen]` for `0 <= i < dataLen`,
with `keyLen = strlen(key)`. -/
def xorCipher (data key : List Nat) : List Nat :=
  xorCipherFrom data key 0

/-- The transform effect of the `encryptFile` read/xor/write loop on a byte
sequence, parameterized by the chunk capacity `c`: each successive chunk of
at most `c` bytes is passed to `xorCipher`, which restarts its key index at
0 on every call, exactly as the C loop does (the C code fixes
`c = BUFFER_SIZE`). -/
def chunkedXor (c : Nat) (key data : List Nat) : List Nat :=
  if h : c = 0 ∨ data = [] then []
  else xorCipher (data.take c) key ++ chunkedXor c key (data.drop c)
termination_by data.length
decreasing_by
  have hc : c ≠ 0 := fun hc0 => h (Or.inl hc0)
  have hd : 0 < data.length := List.length_pos.mpr (fun hd0 => h (Or.inr hd0))
  simp only [List.length_drop]
  omega

/-- Environment of one `encryptFile` call: everything the surrounding file
system and C library decide. `fwriteResultAt i = some w` means the `fwrite`
for chunk number `i` returns `w`; `none` means it returns the full
requested count. `readFailIdx = some i` means the `fread` for chunk
number `i` fails (returns 0 with the stream error flag set). -/
structure FileEnv where
  srcOpenable : Bool
  srcContent : List Nat
  sizeQueryOk : Bool
  dstOpenable : Bool
  fwriteResultAt : Nat → Option Nat
  readFailIdx : Option Nat
  srcCloseOk : Bool
  dstCloseOk : Bool

/-- Observable outcome of one `encryptFile` call: the returned `int`, the
destination file's bytes (`none` when the destination was never opened),
whether `fclose` was attempted on each handle, and whether the
close-failure warnings were printed. -/
structure RunOutcome where
  result : Int
  dstFile : Option (List Nat)
  srcCloseAttempted : Bool
  dstCloseAttempted : Bool
  srcCloseWarned : Bool
  dstCloseWarned : Bool
deriving DecidableEq

/-- The `while ((bytesRead = fread(...)) > 0)` loop of `encryptFile`,
processing `remaining` source bytes starting at chunk number `idx`.
Returns `(result, bytes written to the destination stream, ferror flag)`.
A chunk whose `fwrite` returns fewer bytes than requested sets the result
to -1 and breaks out of the loop, exactly as the C code does. -/
def transferLoop (key : List Nat) (fw : Nat → Option Nat) (rf : Option Nat)
    (remaining : List Nat) (idx : Nat) : Int × List Nat × Bool :=
  if rf = some idx then (0, [], true)
  else if h : remaining = [] then (0, [], false)
  else
    let enc := xorCipher (remaining.take BUFFER_SIZE) key
    let written := (fw idx).getD enc.length
    if written = enc.length then
      let next := transferLoop key fw rf (remaining.drop BUFFER_SIZE) (idx + 1)
      (next.1, enc ++ next.2.1, next.2.2)
    else
      (-1, enc.take written, false)
termination_by remaining.length
decreasing_by
  have hd : 0 < remaining.length := List.length_pos.mpr h
  simp only [List.length_drop, BUFFER_SIZE]
  omega

/-- `encryptFile(inputFile, outputFile, key)` from the C source, expressed
over an explicit environment: open source (`rb`), query its size, reject a
zero-byte source, open destination (`wb`), run the chunked transfer loop,
check `ferror` on the source, then close the source (failure there only
prints a warning) and close the destination (failure there also forces the
result to -1). -/
def encryptFile (env : FileEnv) (key : List Nat) : RunOutcome :=
  if env.srcOpenable = false then
    ⟨-1, none, false, false, false, false⟩
  else if env.sizeQueryOk = false then
    ⟨-1, none, true, false, false, false⟩
  else if env.srcContent.length = 0 then
    ⟨-1, none, true, false, false, false⟩
  else if env.dstOpenable = false then
    ⟨-1, none, true, false, false, false⟩
  else
    let t := transferLoop key env.fwriteResultAt env.readFailIdx env.srcContent 0
    let r1 : Int := if t.2.2 = true then -1 else t.1
    let r2 : Int := if env.dstCloseOk = false then -1 else r1
    ⟨r2, some t.2.1, true, true, env.srcCloseOk = false, env.dstCloseOk = false⟩

/-- `decryptFile` from the C source: it just calls `encryptFile` with the
same three arguments. -/
def decryptFile (env : FileEnv) (key : List Nat) : RunOutcome :=
  encryptFile env key

/-- `validateKey` from the C source: 0 when the key is accepted, -1 when
`strlen(key) < MIN_KEY_LENGTH` or `strlen(key) >= MAX_KEY_LENGTH - 1`. -/
def validateKey (key : List Nat) : Int :=
  if key.length < MIN_KEY_LENGTH then -1
  else if MAX_KEY_LENGTH - 1 ≤ key.length then -1
  else 0

/-! ### Basic lemmas about the XOR engine -/

theorem xorCipherFrom_length (data key : List Nat) (i : Nat) :
    (xorCipherFrom data key i).length = data.length := by
  induction data generalizing i with
  | nil => rfl
  | cons b rest ih => simp [xorCipherFrom, ih]

theorem xorCipherFrom_getElem? (data key : List Nat) (i j : Nat) :
    (xorCipherFrom data key i)[j]? =
      (data[j]?).map (fun b => b ^^^ key.getD ((i + j) % key.length) 0) := by
  induction data generalizing i j with
  | nil => simp [xorCipherFrom]
  | cons b rest ih =>
    cases j with
    | zero => simp [xorCipherFrom]
    | succ j' =>
      simp only [xorCipherFrom, List.getElem?_cons_succ]
      rw [ih (i + 1) j']
      have harith : i + 1 + j' = i + (j' + 1) := by omega
      rw [harith]

theorem xorCipher_length (data key : List Nat) :
    (xorCipher data key).length = data.length :=
  xorCipherFrom_length data key 0

theorem xorCipher_getElem? (data key : List Nat) (j : Nat) :
    (xorCipher data key)[j]? =
      (data[j]?).map (fun b => b ^^^ key.getD (j % key.length) 0) := by
  rw [xorCipher, xorCipherFrom_getElem? data key 0 j, Nat.zero_add]

/-! ### Unfolding lemmas for the chunked transform -/

theorem chunkedXor_nil (c : Nat) (key : List Nat) : chunkedXor c key [] = [] := by
  rw [chunkedXor]
  simp

theorem chunkedXor_cons (c : Nat) (key data : List Nat) (hc : c ≠ 0) (hd : data ≠ []) :
    chunkedXor c key data =
      xorCipher (data.take c) key ++ chunkedXor c key (data.drop c) := by
  rw [chunkedXor]
  simp [hc, hd]

/-- Per-index description of the chunked transform: with chunk capacity
`c > 0`, the byte at global position `j` is XORed against
`key[(j % c) % keyLen]`, because the key phase restarts at every chunk
boundary. -/
theorem chunkedXor_getElem? (c : Nat) (key data : List Nat) (hc : 0 < c) (j : Nat) :
    (chunkedXor c key data)[j]? =
      (data[j]?).map (fun b => b ^^^ key.getD ((j % c) % key.length) 0) := by
  by_cases hd : data = []
  · subst hd
    simp [chunkedXor_nil]
  · rw [chunkedXor_cons c key data (by omega) hd]
    have hlen : (xorCipher (data.take c) key).length = min c data.length := by
      simp [xorCipher_length]
    by_cases hj : j < (xorCipher (data.take c) key).length
    · rw [List.getElem?_append_left hj]
      rw [hlen] at hj
      have hjc : j < c := lt_of_lt_of_le hj (Nat.min_le_left c data.length)
      rw [xorCipher_getElem?]
      rw [List.getElem?_take, if_pos hjc]
      rw [Nat.mod_eq_of_lt hjc]
    · push_neg at hj
      rw [List.getElem?_append_right hj]
      rw [hlen] at hj
      by_cases hcd : c ≤ data.length
      · rw [hlen, Nat.min_eq_left hcd]
        have hcj : c ≤ j := le_trans (le_of_eq (Nat.min_eq_left hcd).symm) hj
        rw [chunkedXor_getElem? c key (data.drop c) hc (j - c)]
        rw [List.getElem?_drop]
        have h1 : c + (j - c) = j := by omega
        have h2 : (j - c) % c = j % c := (Nat.mod_eq_sub_mod hcj).symm
        rw [h1, h2]
      · push_neg at hcd
        have hdrop : data.drop c = [] := List.drop_of_length_le (le_of_lt hcd)
        rw [hdrop, chunkedXor_nil]
        have hjd : data.length ≤ j := by
          have := Nat.min_le_right c data.length
          omega
        simp [List.getElem?_eq_none hjd]
termination_by data.length
decreasing_by
  have hd0 : 0 < data.length := List.length_pos.mpr hd
  simp only [List.length_drop]
  omega

/-- The chunked transform never changes the byte count. -/
theorem chunkedXor_length (c : Nat) (key data : List Nat) (hc : 0 < c) :
    (chunkedXor c key data).length = data.length := by
  by_cases hd : data = []
  · subst hd
    simp [chunkedXor_nil]
  · rw [chunkedXor_cons c key data (by omega) hd]
    have ih := chunkedXor_length c key (data.drop c) hc
    simp only [List.length_append, xorCipher_length, List.length_take, ih,
      List.length_drop]
    omega
termination_by data.length
decreasing_by
  have hd0 : 0 < data.length := List.length_pos.mpr hd
  simp only [List.length_drop]
  omega

/-- The chunked transform is self-inverse for any fixed chunk capacity. -/
theorem chunkedXor_chunkedXor (c : Nat) (key data : List Nat) (hc : 0 < c) :
    chunkedXor c key (chunkedXor c key data) = data := by
  apply List.ext_getElem?
  intro j
  rw [chunkedXor_getElem? c key _ hc j, chunkedXor_getElem? c key data hc j]
  cases hdj : data[j]? with
  | none => rfl
  | some b =>
    simp only [Option.map_some']
    rw [Nat.xor_assoc, Nat.xor_self, Nat.xor_zero]

/-! ### Unfolding lemmas for the transfer loop -/

theorem transferLoop_readFail (key : List Nat) (fw : Nat → Option Nat) (rf : Option Nat)
    (remaining : List Nat) (idx : Nat) (h : rf = some idx) :
    transferLoop key fw rf remaining idx = (0, [], true) := by
  rw [transferLoop]
  simp [h]

theorem transferLoop_nil (key : List Nat) (fw : Nat → Option Nat) (rf : Option Nat)
    (idx : Nat) (h : rf ≠ some idx) :
    transferLoop key fw rf [] idx = (0, [], false) := by
  rw [transferLoop]
  simp [h]

theorem transferLoop_step (key : List Nat) (fw : Nat → Option Nat) (rf : Option Nat)
    (remaining : List Nat) (idx : Nat) (h1 : rf ≠ some idx) (h2 : remaining ≠ []) :
    transferLoop key fw rf remaining idx =
      if (fw idx).getD (xorCipher (remaining.take BUFFER_SIZE) key).length
          = (xorCipher (remaining.take BUFFER_SIZE) key).length then
        ((transferLoop key fw rf (remaining.drop BUFFER_SIZE) (idx + 1)).1,
          xorCipher (remaining.take BUFFER_SIZE) key
            ++ (transferLoop key fw rf (remaining.drop BUFFER_SIZE) (idx + 1)).2.1,
          (transferLoop key fw rf (remaining.drop BUFFER_SIZE) (idx + 1)).2.2)
      else
        (-1, (xorCipher (remaining.take BUFFER_SIZE) key).take
              ((fw idx).getD (xorCipher (remaining.take BUFFER_SIZE) key).length),
          false) := by
  rw [transferLoop]
  simp [h1, h2]

/-- If the loop finishes with result 0 and no read error, the bytes written
to the destination are exactly the chunked transform of the remaining
source bytes. -/
theorem transferLoop_out (key : List Nat) (fw : Nat → Option Nat) (rf : Option Nat)
    (remaining : List Nat) (idx : Nat)
    (h0 : (transferLoop key fw rf remaining idx).1 = 0)
    (h1 : (transferLoop key fw rf remaining idx).2.2 = false) :
    (transferLoop key fw rf remaining idx).2.1 = chunkedXor BUFFER_SIZE key remaining := by
  by_cases hrf : rf = some idx
  · rw [transferLoop_readFail key fw rf remaining idx hrf] at h1
    exact absurd h1 (by simp)
  · by_cases hrem : remaining = []
    · subst hrem
      rw [transferLoop_nil key fw rf idx hrf, chunkedXor_nil]
    · rw [transferLoop_step key fw rf remaining idx hrf hrem] at h0 h1 ⊢
      by_cases hw : (fw idx).getD (xorCipher (remaining.take BUFFER_SIZE) key).length
          = (xorCipher (remaining.take BUFFER_SIZE) key).length
      · rw [if_pos hw] at h0 h1 ⊢
        have ih := transferLoop_out key fw rf (remaining.drop BUFFER_SIZE) (idx + 1) h0 h1
        rw [chunkedXor_cons BUFFER_SIZE key remaining (by simp [BUFFER_SIZE]) hrem]
        rw [ih]
      · rw [if_neg hw] at h0
        exact absurd h0 (by simp)
termination_by remaining.length
decreasing_by
  have hd0 : 0 < remaining.length := List.length_pos.mpr hrem
  simp only [List.length_drop, BUFFER_SIZE]
  omega

/-- A returned 0 can only come from the main path with a clean loop, a clean
`ferror` check and a clean destination close; on that path the destination
file holds exactly the chunked transform of the source bytes. -/
theorem encryptFile_success (env : FileEnv) (key : List Nat)
    (h : (encryptFile env key).result = 0) :
    (encryptFile env key).dstFile = some (chunkedXor BUFFER_SIZE key env.srcContent) := by
  by_cases h1 : env.srcOpenable = false
  · exact absurd h (by simp [encryptFile, h1])
  by_cases h2 : env.sizeQueryOk = false
  · exact absurd h (by simp [encryptFile, h1, h2])
  by_cases h3 : env.srcContent.length = 0
  · exact absurd h (by simp [encryptFile, h1, h2, h3])
  by_cases h4 : env.dstOpenable = false
  · exact absurd h (by simp [encryptFile, h1, h2, h3, h4])
  simp only [encryptFile, h1, h2, h3, h4, if_false, if_neg, ite_false] at h ⊢
  by_cases h5 : env.dstCloseOk = false
  · rw [if_pos h5] at h
    exact absurd h (by simp)
  · rw [if_neg h5] at h
    by_cases h6 : (transferLoop key env.fwriteResultAt env.readFailIdx env.srcContent 0).2.2 = true
    · rw [if_pos h6] at h
      exact absurd h (by simp)
    · rw [if_neg h6] at h
      have h6' : (transferLoop key env.fwriteResultAt env.readFailIdx env.srcContent 0).2.2
          = false := by
        simpa using h6
      rw [transferLoop_out key env.fwriteResultAt env.readFailIdx env.srcContent 0 h h6']
      simp

/-- Splitting the chunked transform of the first `i + 1` chunks into the
head chunk and the remaining `i` chunks. -/
theorem chunkedXor_take_chunk (c : Nat) (key remaining : List Nat) (i : Nat)
    (hc : 0 < c) (hrem : remaining ≠ []) :
    chunkedXor c key (remaining.take (c * (i + 1))) =
      xorCipher (remaining.take c) key
        ++ chunkedXor c key ((remaining.drop c).take (c * i)) := by
  have hmul : c * (i + 1) = c * i + c := Nat.mul_succ c i
  have hne : remaining.take (c * (i + 1)) ≠ [] := by
    rw [Ne, List.take_eq_nil_iff]
    push_neg
    exact ⟨by omega, hrem⟩
  rw [chunkedXor_cons c key _ (by omega) hne]
  rw [List.take_take]
  have hmin : min c (c * (i + 1)) = c := Nat.min_eq_left (by omega)
  rw [hmin]
  rw [List.drop_take]
  have hsub : c * (i + 1) - c = c * i := by omega
  rw [hsub]

/-- If the writes of all chunks before chunk `i` succeed in full, chunk `i`
exists, and its write comes back short, the loop stops there with result -1:
the destination stream holds exactly the transforms of the first `i` full
chunks plus the short prefix of chunk `i`, and nothing after chunk `i` is
read or written. -/
theorem transferLoop_writeFail (key : List Nat) (fw : Nat → Option Nat) (w : Nat)
    (i : Nat) : ∀ (remaining : List Nat) (idx : Nat),
    (∀ j, j < i → fw (idx + j) = none) →
    fw (idx + i) = some w →
    w ≠ (xorCipher ((remaining.drop (BUFFER_SIZE * i)).take BUFFER_SIZE) key).length →
    BUFFER_SIZE * i < remaining.length →
    transferLoop key fw none remaining idx =
      (-1,
        chunkedXor BUFFER_SIZE key (remaining.take (BUFFER_SIZE * i))
          ++ (xorCipher ((remaining.drop (BUFFER_SIZE * i)).take BUFFER_SIZE) key).take w,
        false) := by
  induction i with
  | zero =>
    intro remaining idx hprev hw hne hlen
    have hrem : remaining ≠ [] := by
      intro hemp
      rw [hemp] at hlen
      simp at hlen
    rw [transferLoop_step key fw none remaining idx (by simp) hrem]
    rw [Nat.mul_zero] at hne ⊢
    rw [List.drop_zero] at hne ⊢
    rw [Nat.add_zero] at hw
    rw [hw]
    simp only [Option.getD_some]
    rw [if_neg hne]
    rw [List.take_zero, chunkedXor_nil, List.nil_append]
  | succ i ih =>
    intro remaining idx hprev hw hne hlen
    have hB : 0 < BUFFER_SIZE := by simp [BUFFER_SIZE]
    have hmul : BUFFER_SIZE * (i + 1) = BUFFER_SIZE * i + BUFFER_SIZE := Nat.mul_succ _ _
    have hrem : remaining ≠ [] := by
      intro hemp
      rw [hemp] at hlen
      simp at hlen
    rw [transferLoop_step key fw none remaining idx (by simp) hrem]
    have h0 : fw idx = none := by
      have := hprev 0 (by omega)
      rwa [Nat.add_zero] at this
    rw [h0]
    simp only [Option.getD_none, if_pos]
    have hdd : (remaining.drop BUFFER_SIZE).drop (BUFFER_SIZE * i)
        = remaining.drop (BUFFER_SIZE * (i + 1)) := by
      rw [List.drop_drop]
      have harith : BUFFER_SIZE + BUFFER_SIZE * i = BUFFER_SIZE * (i + 1) := by omega
      rw [harith]
    have hstep := ih (remaining.drop BUFFER_SIZE) (idx + 1)
      (by
        intro j hj
        have := hprev (j + 1) (by omega)
        have harith : idx + (j + 1) = idx + 1 + j := by omega
        rwa [harith] at this)
      (by
        have harith : idx + (i + 1) = idx + 1 + i := by omega
        rwa [harith] at hw)
      (by rwa [hdd])
      (by
        rw [List.length_drop]
        omega)
    rw [hstep, hdd]
    rw [chunkedXor_take_chunk BUFFER_SIZE key remaining i hB hrem]
    rw [List.append_assoc]

/-- An environment in which every file-system operation succeeds. -/
def cleanEnv (src : List Nat) : FileEnv :=
  ⟨true, src, true, true, fun _ => none, none, true, true⟩

/-- With no read failure and all writes full, the loop returns 0 and writes
the chunked transform of the whole source. -/
theorem transferLoop_clean (key remaining : List Nat) (idx : Nat) :
    transferLoop key (fun _ => none) none remaining idx
      = (0, chunkedXor BUFFER_SIZE key remaining, false) := by
  by_cases hrem : remaining = []
  · subst hrem
    rw [transferLoop_nil key _ none idx (by simp), chunkedXor_nil]
  · rw [transferLoop_step key _ none remaining idx (by simp) hrem]
    have hcond : ((fun _ : Nat => (none : Option Nat)) idx).getD
        (xorCipher (remaining.take BUFFER_SIZE) key).length
        = (xorCipher (remaining.take BUFFER_SIZE) key).length := rfl
    rw [if_pos hcond]
    rw [transferLoop_clean key (remaining.drop BUFFER_SIZE) (idx + 1)]
    rw [chunkedXor_cons BUFFER_SIZE key remaining (by simp [BUFFER_SIZE]) hrem]
termination_by remaining.length
decreasing_by
  have hpos : 0 < remaining.length := List.length_pos.mpr hrem
  simp only [List.length_drop, BUFFER_SIZE]
  omega

/-- On a clean environment with a non-empty source, `encryptFile` succeeds
and the destination file is the chunked transform of the source. -/
theorem encryptFile_cleanEnv (src key : List Nat) (h : src ≠ []) :
    encryptFile (cleanEnv src) key =
      ⟨0, some (chunkedXor BUFFER_SIZE key src), true, true, false, false⟩ := by
  have hlen : src.length ≠ 0 := fun h0 => h (List.length_eq_zero.mp h0)
  simp [encryptFile, cleanEnv, hlen, transferLoop_clean]

/-! ### Claims -/

/-- Claim C1: for every non-empty byte sequence `D` and every key of length
between 1 and 126, applying the program's file transform twice with the
same key and the same chunking (`xorCipher` chunk-for-chunk, the
`encryptFile` loop's transform) yields exactly `D` again, and a successful
`encryptFile` run whose source is the produced bytes recovers `D` as its
destination file. -/
theorem roundTrip_xor_transform (key D : List Nat) (hD : D ≠ [])
    (hk1 : 1 ≤ key.length) (hk2 : key.length ≤ 126) :
    chunkedXor BUFFER_SIZE key (chunkedXor BUFFER_SIZE key D) = D ∧
    (∀ env2 : FileEnv, env2.srcContent = chunkedXor BUFFER_SIZE key D →
      (encryptFile env2 key).result = 0 →
      (encryptFile env2 key).dstFile = some D) := by
  constructor
  · exact chunkedXor_chunkedXor BUFFER_SIZE key D (by simp [BUFFER_SIZE])
  · intro env2 hsrc h0
    rw [encryptFile_success env2 key h0, hsrc,
      chunkedXor_chunkedXor BUFFER_SIZE key D (by simp [BUFFER_SIZE])]

/-- Witness for C1 at key "ABCD" and a five-byte source (length a multiple
of neither the key length nor the chunk size). -/
theorem roundTrip_xor_transform_witness :
    ([1, 2, 3, 4, 5] : List Nat) ≠ [] ∧
    1 ≤ ([65, 66, 67, 68] : List Nat).length ∧
    ([65, 66, 67, 68] : List Nat).length ≤ 126 ∧
    chunkedXor BUFFER_SIZE [65, 66, 67, 68]
      (chunkedXor BUFFER_SIZE [65, 66, 67, 68] [1, 2, 3, 4, 5]) = [1, 2, 3, 4, 5] :=
  ⟨by decide, by decide, by decide,
    (roundTrip_xor_transform [65, 66, 67, 68] [1, 2, 3, 4, 5]
      (by decide) (by decide) (by decide)).1⟩

/-- Counterexample to claim C2: with the valid 4-byte key "ABCD" and the
two-byte source `[0, 0]`, chunk capacity 1 and chunk capacity 7 already
produce different output, because `xorCipher` restarts the key phase at
every chunk boundary. -/
theorem chunk_capacity_variance_cex :
    ¬ (chunkedXor 1 [65, 66, 67, 68] [0, 0] = chunkedXor 7 [65, 66, 67, 68] [0, 0]) := by
  intro h
  have h1 := chunkedXor_getElem? 1 [65, 66, 67, 68] [0, 0] (by decide) 1
  have h7 := chunkedXor_getElem? 7 [65, 66, 67, 68] [0, 0] (by decide) 1
  rw [h, h7] at h1
  simp [List.getD] at h1

/-- Claim C2 (amended): chunked transforms taken at two chunk capacities
produce byte-identical output for every source whenever the key length
divides both capacities (each then reduces to global key cycling); the
original capacities 1, 7, 4096 and `len(D)+1` do not coincide in general,
because the key phase restarts at each chunk boundary. -/
theorem chunkedXor_capacity_of_dvd (c1 c2 : Nat) (key D : List Nat)
    (h1 : 0 < c1) (h2 : 0 < c2)
    (hd1 : key.length ∣ c1) (hd2 : key.length ∣ c2) :
    chunkedXor c1 key D = chunkedXor c2 key D := by
  apply List.ext_getElem?
  intro j
  rw [chunkedXor_getElem? c1 key D h1 j, chunkedXor_getElem? c2 key D h2 j]
  rw [Nat.mod_mod_of_dvd j hd1, Nat.mod_mod_of_dvd j hd2]

/-- Witness for the amended C2: the 4-byte key "ABCD" divides capacities 4
and 8, so those two chunkings agree on a five-byte source. -/
theorem chunkedXor_capacity_of_dvd_witness :
    0 < 4 ∧ 0 < 8 ∧
    ([65, 66, 67, 68] : List Nat).length ∣ 4 ∧
    ([65, 66, 67, 68] : List Nat).length ∣ 8 ∧
    chunkedXor 4 [65, 66, 67, 68] [1, 2, 3, 4, 5]
      = chunkedXor 8 [65, 66, 67, 68] [1, 2, 3, 4, 5] :=
  ⟨by decide, by decide, by decide, by decide,
    chunkedXor_capacity_of_dvd 4 8 [65, 66, 67, 68] [1, 2, 3, 4, 5]
      (by decide) (by decide) (by decide) (by decide)⟩

/-- Claim C3: with key "AB" (bytes 0x41 0x42) and data `[0, 0, 0]`,
transforming the split `[0, 0]` then `[0]` in two `xorCipher` calls (the
second call's cycling, whether chunk-restarted as the code does or
continued from global byte offset 2, is the same here) equals the single
three-byte call, and the result is `[0x41, 0x42, 0x41]`. -/
theorem keyCycling_concrete :
    xorCipher [0, 0] [65, 66] ++ xorCipher [0] [65, 66]
        = xorCipher [0, 0, 0] [65, 66] ∧
    xorCipher [0, 0] [65, 66] ++ xorCipherFrom [0] [65, 66] 2
        = xorCipher [0, 0, 0] [65, 66] ∧
    xorCipher [0, 0, 0] [65, 66] = [65, 66, 65] := by
  decide

/-- Claim C4: for every key, running the transform on a zero-length source
fails (result -1) right after the size check: the destination is never
opened, created or written (its open comes only after the size check), no
bytes are written, and the already-open source handle is closed. -/
theorem emptySource_rejected (env : FileEnv) (key : List Nat)
    (h1 : env.srcOpenable = true) (h2 : env.sizeQueryOk = true)
    (h3 : env.srcContent = []) :
    encryptFile env key = ⟨-1, none, true, false, false, false⟩ := by
  simp [encryptFile, h1, h2, h3]

/-- Witness for C4: a zero-length source in an otherwise clean environment
with the key "ABCD". -/
theorem emptySource_rejected_witness :
    (cleanEnv []).srcOpenable = true ∧
    (cleanEnv []).sizeQueryOk = true ∧
    (cleanEnv []).srcContent = [] ∧
    encryptFile (cleanEnv []) [65, 66, 67, 68] = ⟨-1, none, true, false, false, false⟩ :=
  ⟨rfl, rfl, rfl, emptySource_rejected (cleanEnv []) [65, 66, 67, 68] rfl rfl rfl⟩

/-- Claim C5: after a successful run the destination file exists and holds
exactly as many bytes as the source file. -/
theorem size_preserved (env : FileEnv) (key : List Nat)
    (h : (encryptFile env key).result = 0) :
    ((encryptFile env key).dstFile).map List.length = some env.srcContent.length := by
  rw [encryptFile_success env key h]
  rw [Option.map_some']
  rw [chunkedXor_length BUFFER_SIZE key env.srcContent (by simp [BUFFER_SIZE])]

/-- Witness for C5: a clean three-byte run with the key "ABCD". -/
theorem size_preserved_witness :
    (encryptFile (cleanEnv [10, 20, 30]) [65, 66, 67, 68]).result = 0 ∧
    ((encryptFile (cleanEnv [10, 20, 30]) [65, 66, 67, 68]).dstFile).map List.length
      = some (cleanEnv [10, 20, 30]).srcContent.length := by
  have h0 : (encryptFile (cleanEnv [10, 20, 30]) [65, 66, 67, 68]).result = 0 := by
    rw [encryptFile_cleanEnv [10, 20, 30] [65, 66, 67, 68] (by decide)]
  exact ⟨h0, size_preserved (cleanEnv [10, 20, 30]) [65, 66, 67, 68] h0⟩

/-- Claim C6: `decryptFile` returns the same result and produces the same
destination bytes as `encryptFile` on the same arguments - it is the very
same code path. -/
theorem decryptFile_eq_encryptFile (env : FileEnv) (key : List Nat) :
    decryptFile env key = encryptFile env key := rfl

/-- Counterexample to claim C7: a key of exactly 127 bytes lies inside the
claimed acceptance range `[4, 127]`, yet `validateKey` rejects it (the C
test is `len >= MAX_KEY_LENGTH - 1`, i.e. `len >= 127`). -/
theorem validateKey_len127_cex :
    (List.replicate 127 65).length = 127 ∧
    ¬ (validateKey (List.replicate 127 65) = 0) := by
  constructor
  · simp
  · intro h
    rw [validateKey] at h
    simp [MIN_KEY_LENGTH, MAX_KEY_LENGTH] at h

/-- Claim C7 (amended): `validateKey` accepts exactly the keys whose length
is at least `MIN_KEY_LENGTH = 4` and at most 126 bytes; 127-byte keys are
already rejected by the `len >= MAX_KEY_LENGTH - 1` test. -/
theorem validateKey_accepts_iff (key : List Nat) :
    validateKey key = 0 ↔ 4 ≤ key.length ∧ key.length ≤ 126 := by
  unfold validateKey MIN_KEY_LENGTH MAX_KEY_LENGTH
  split_ifs with h1 h2
  · constructor
    · intro h0
      exact absurd h0 (by decide)
    · intro h0
      omega
  · constructor
    · intro h0
      exact absurd h0 (by decide)
    · intro h0
      omega
  · constructor
    · intro _
      omega
    · intro _
      rfl

/-- Claim C8: when the destination write of some chunk `i` reports fewer
bytes than requested (all earlier writes having succeeded and no read
error intervening), the run fails with result -1, nothing past chunk `i`
is read or written (the destination stream holds exactly the transforms of
chunks before `i` plus the short prefix of chunk `i`), and both handles
are closed before returning. -/
theorem writeFail_aborts (env : FileEnv) (key : List Nat) (i w : Nat)
    (h1 : env.srcOpenable = true) (h2 : env.sizeQueryOk = true)
    (h4 : env.dstOpenable = true) (hrf : env.readFailIdx = none)
    (hprev : ∀ j, j < i → env.fwriteResultAt j = none)
    (hw : env.fwriteResultAt i = some w)
    (hlen : BUFFER_SIZE * i < env.srcContent.length)
    (hne : w ≠ (xorCipher ((env.srcContent.drop (BUFFER_SIZE * i)).take BUFFER_SIZE)
        key).length) :
    (encryptFile env key).result = -1 ∧
    (encryptFile env key).dstFile =
      some (chunkedXor BUFFER_SIZE key (env.srcContent.take (BUFFER_SIZE * i))
        ++ (xorCipher ((env.srcContent.drop (BUFFER_SIZE * i)).take BUFFER_SIZE)
            key).take w) ∧
    (encryptFile env key).srcCloseAttempted = true ∧
    (encryptFile env key).dstCloseAttempted = true := by
  have h3 : env.srcContent.length ≠ 0 := by omega
  have hloop0 : transferLoop key env.fwriteResultAt env.readFailIdx env.srcContent 0
      = (-1,
          chunkedXor BUFFER_SIZE key (env.srcContent.take (BUFFER_SIZE * i))
            ++ (xorCipher ((env.srcContent.drop (BUFFER_SIZE * i)).take BUFFER_SIZE)
                key).take w,
          false) := by
    rw [hrf]
    exact transferLoop_writeFail key env.fwriteResultAt w i env.srcContent 0
      (fun j hj => by simpa using hprev j hj)
      (by simpa using hw) hne hlen
  refine ⟨?_, ?_, ?_, ?_⟩ <;> simp [encryptFile, h1, h2, h3, h4, hloop0]

/-- Witness for C8: the write of chunk 0 returns 1 of the 3 requested
bytes. -/
theorem writeFail_aborts_witness :
    (⟨true, [1, 2, 3], true, true, fun _ => some 1, none, true, true⟩
        : FileEnv).fwriteResultAt 0 = some 1 ∧
    BUFFER_SIZE * 0 < ([1, 2, 3] : List Nat).length ∧
    (encryptFile ⟨true, [1, 2, 3], true, true, fun _ => some 1, none, true, true⟩
      [65, 66, 67, 68]).result = -1 := by
  refine ⟨rfl, by decide, ?_⟩
  exact (writeFail_aborts
    ⟨true, [1, 2, 3], true, true, fun _ => some 1, none, true, true⟩
    [65, 66, 67, 68] 0 1 rfl rfl rfl rfl
    (fun j hj => absurd hj (Nat.not_lt_zero j))
    rfl (by decide) (by decide)).1

/-- Claim C9: a failed destination close forces a failing result even when
everything else succeeded; a failed source close never changes the
returned result; and the source close is attempted on every exit path on
which the source was opened. -/
theorem close_semantics (env : FileEnv) (key : List Nat) :
    (∀ b, (encryptFile { env with srcCloseOk := b } key).result
        = (encryptFile env key).result) ∧
    (env.srcOpenable = true → (encryptFile env key).srcCloseAttempted = true) ∧
    (env.srcOpenable = true → env.sizeQueryOk = true → env.srcContent ≠ [] →
      env.dstOpenable = true → env.dstCloseOk = false →
      (encryptFile env key).result = -1) := by
  refine ⟨?_, ?_, ?_⟩
  · intro b
    by_cases h1 : env.srcOpenable = false
    · simp [encryptFile, h1]
    · by_cases h2 : env.sizeQueryOk = false
      · simp [encryptFile, h1, h2]
      · by_cases h3 : env.srcContent.length = 0
        · simp [encryptFile, h1, h2, h3]
        · by_cases h4 : env.dstOpenable = false
          · simp [encryptFile, h1, h2, h3, h4]
          · simp [encryptFile, h1, h2, h3, h4]
  · intro h1
    by_cases h2 : env.sizeQueryOk = false
    · simp [encryptFile, h1, h2]
    · by_cases h3 : env.srcContent.length = 0
      · simp [encryptFile, h1, h2, h3]
      · by_cases h4 : env.dstOpenable = false
        · simp [encryptFile, h1, h2, h3, h4]
        · simp [encryptFile, h1, h2, h3, h4]
  · intro h1 h2 h3 h4 h5
    have h3' : env.srcContent.length ≠ 0 :=
      fun h0 => h3 (List.length_eq_zero.mp h0)
    simp [encryptFile, h1, h2, h3', h4, h5]

/-- Witness for C9: a clean run except that closing the destination
fails. -/
theorem close_semantics_witness :
    (⟨true, [1, 2, 3], true, true, fun _ => none, none, true, false⟩
        : FileEnv).srcOpenable = true ∧
    (⟨true, [1, 2, 3], true, true, fun _ => none, none, true, false⟩
        : FileEnv).dstCloseOk = false ∧
    (encryptFile ⟨true, [1, 2, 3], true, true, fun _ => none, none, true, false⟩
      [65, 66, 67, 68]).srcCloseAttempted = true ∧
    (encryptFile ⟨true, [1, 2, 3], true, true, fun _ => none, none, true, false⟩
      [65, 66, 67, 68]).result = -1 := by
  refine ⟨rfl, rfl, ?_, ?_⟩
  · exact (close_semantics
      ⟨true, [1, 2, 3], true, true, fun _ => none, none, true, false⟩
      [65, 66, 67, 68]).2.1 rfl
  · exact (close_semantics
      ⟨true, [1, 2, 3], true, true, fun _ => none, none, true, false⟩
      [65, 66, 67, 68]).2.2 rfl rfl (by decide) rfl rfl

/-- Claim C10 (implicit actual output formula): on every successful
`encryptFile` run with a key of positive length, the destination file is
the chunked transform of the source, whose byte at global position `j` is
the source byte XORed with `key[(j % 4096) % keyLen]` (the key phase
restarts at every 4096-byte chunk boundary); and that index rule agrees
with global cycling `key[j % keyLen]` at every position exactly when
`keyLen` divides 4096. -/
theorem output_formula (env : FileEnv) (key : List Nat)
    (hk : 0 < key.length) (h : (encryptFile env key).result = 0) :
    (encryptFile env key).dstFile = some (chunkedXor BUFFER_SIZE key env.srcContent) ∧
    (∀ j, (chunkedXor BUFFER_SIZE key env.srcContent)[j]? =
      (env.srcContent[j]?).map
        (fun b => b ^^^ key.getD ((j % BUFFER_SIZE) % key.length) 0)) ∧
    ((∀ i : Nat, (i % BUFFER_SIZE) % key.length = i % key.length)
      ↔ key.length ∣ BUFFER_SIZE) := by
  refine ⟨encryptFile_success env key h, ?_, ?_, ?_⟩
  · intro j
    exact chunkedXor_getElem? BUFFER_SIZE key env.srcContent (by simp [BUFFER_SIZE]) j
  · intro hall
    have hB := hall BUFFER_SIZE
    rw [Nat.mod_self, Nat.zero_mod] at hB
    exact Nat.dvd_of_mod_eq_zero hB.symm
  · intro hdvd i
    exact Nat.mod_mod_of_dvd i hdvd

/-- Witness for C10: a clean three-byte run with the key "ABCD". -/
theorem output_formula_witness :
    0 < ([65, 66, 67, 68] : List Nat).length ∧
    (encryptFile (cleanEnv [10, 20, 30]) [65, 66, 67, 68]).result = 0 ∧
    (encryptFile (cleanEnv [10, 20, 30]) [65, 66, 67, 68]).dstFile
      = some (chunkedXor BUFFER_SIZE [65, 66, 67, 68] (cleanEnv [10, 20, 30]).srcContent) := by
  have h0 : (encryptFile (cleanEnv [10, 20, 30]) [65, 66, 67, 68]).result = 0 := by
    rw [encryptFile_cleanEnv [10, 20, 30] [65, 66, 67, 68] (by decide)]
  exact ⟨by decide, h0,
    (output_formula (cleanEnv [10, 20, 30]) [65, 66, 67, 68] (by decide) h0).1⟩
